import Mathlib

/-!
# Eigenface training and recognition: a shallow embedding

Embedding of `src/train/mytrain.cpp` and `src/test/mytest.cpp`.

Conventions.
* `float` / `double` values are exact rationals (`ℚ`); the three special
  outcomes of a double division by zero are spelled out in `energyReached`.
* A Euclidean norm is carried by its square, so that every comparison the
  source makes between two norms is decided exactly.
* `exit(1)` and an uncaught `cv::Exception` are explicit outcomes.
* Results of the OpenCV routines `imread`, `PCA`, `resize` and the pixel
  contents written by `warpAffine` are inputs of the definitions.
-/

set_option autoImplicit false

namespace Eigenface

/-- Outcome of a piece of the program: it returns a value, or the process
ends through `exit(code)`. -/
inductive Outcome (α : Type) where
  | returned (a : α)
  | exited (code : Int)
  deriving DecidableEq, Repr

/-! ## Training: component selection (`mytrain.cpp`, `computeEigenfaces`) -/

/-- The fields of the `cv::PCA` object built at `mytrain.cpp:59` that the
rest of `computeEigenfaces` reads. Matrices are lists of rows. -/
structure PCA where
  mean : List ℚ
  eigenvalues : List ℚ
  eigenvectors : List (List ℚ)
  deriving DecidableEq, Repr

/-- The test `(cumulativeEnergy / totalEnergy) >= (energyPercent / 100.0)` of
`mytrain.cpp:78` on doubles. With `totalEnergy == 0` the quotient is `+inf`
for a positive numerator (the test holds for every finite threshold) and
`NaN` or `-inf` otherwise (the test fails for a threshold above zero, and a
comparison with `NaN` always fails). -/
def energyReached (cumulativeEnergy totalEnergy energyPercent : ℚ) : Bool :=
  if totalEnergy = 0 then decide (0 < cumulativeEnergy)
  else decide (energyPercent / 100 ≤ cumulativeEnergy / totalEnergy)

/-- The loop of `mytrain.cpp:76-82`, entered at index `i` with the running
`cumulativeEnergy`; the list holds `eigenvalues[i..]`. The result is
`numComponents`: `i + 1` at the first index where the test holds (`break`),
and the initial `0` when the loop runs to its end. -/
def selectLoop (totalEnergy energyPercent : ℚ) : List ℚ → Nat → ℚ → Nat
  | [], _, _ => 0
  | ev :: rest, i, cumulativeEnergy =>
    if energyReached (cumulativeEnergy + ev) totalEnergy energyPercent then i + 1
    else selectLoop totalEnergy energyPercent rest (i + 1) (cumulativeEnergy + ev)

/-- Lines 70-82 of `mytrain.cpp`: `totalEnergy = sum(eigenvalues)`, then the
selection loop from index 0 with `cumulativeEnergy = 0`. -/
def numComponents (eigenvalues : List ℚ) (energyPercent : ℚ) : Nat :=
  selectLoop eigenvalues.sum energyPercent eigenvalues 0 0

/-- The body of `computeEigenfaces` after the PCA (`mytrain.cpp:63-99`).
`meanFace` and `eigenVectors` are the output arguments as the caller passed
them in; the early `return` of line 65 leaves them untouched. -/
def computeEigenfaces (pca : PCA) (energyPercent : ℚ)
    (meanFace : List ℚ) (eigenVectors : List (List ℚ)) :
    Outcome (List ℚ × List (List ℚ)) :=
  if pca.eigenvalues = [] then Outcome.returned (meanFace, eigenVectors)
  else
    let n := numComponents pca.eigenvalues energyPercent
    if n ≤ 0 then Outcome.exited 1
    else
      Outcome.returned
        (pca.mean, pca.eigenvectors.take (min n pca.eigenvectors.length))

/-- What `main` of `mytrain.cpp` does with the batch once it is assembled
(lines 196-205): it calls `computeEigenfaces` on empty `meanFace` and
`eigenVectors` and, whenever that call returns, writes both to the model
file. The returned pair is the content of the saved model. -/
def trainAndSave (pca : PCA) (energyPercent : ℚ) :
    Outcome (List ℚ × List (List ℚ)) :=
  match computeEigenfaces pca energyPercent [] [] with
  | Outcome.returned (meanFace, eigenVectors) => Outcome.returned (meanFace, eigenVectors)
  | Outcome.exited code => Outcome.exited code

/-- The claim’s inequality between a prefix sum and the total, read on
doubles: the quotient is at least `energyPercent / 100`. -/
def RatioAtLeast (prefixSum total energyPercent : ℚ) : Prop :=
  (total ≠ 0 ∧ energyPercent / 100 ≤ prefixSum / total) ∨ (total = 0 ∧ 0 < prefixSum)

/-! ## Training: eye annotations, normalization, batch assembly -/

namespace Train

/-- An integer `cv::Point`. -/
structure Point where
  x : Int
  y : Int
  deriving DecidableEq, Repr

/-- A training image `cv::Mat`, by its dimensions. The pixel contents are
produced by `imread` and `warpAffine` and are read by `cv::PCA` only; no
branch of the trainer depends on them. -/
structure Mat where
  rows : Nat
  cols : Nat
  deriving DecidableEq, Repr

/-- The test `Mat::empty()`: no element. -/
def Mat.empty (m : Mat) : Bool := m.rows == 0 || m.cols == 0

/-- An existing `.eye` file as `readEyePosition` sees it: it cannot be
opened, or it opens and, once the first (header) line is consumed, holds a
sequence of whitespace-separated tokens, each an integer (`some`) or not
(`none`). -/
inductive EyeFile where
  | unopenable
  | opened (tokens : List (Option Int))
  deriving DecidableEq, Repr

/-- Function `readEyePosition` (`mytrain.cpp:12-34`): `exit(1)` when the file
does not open or when one of the four extractions `file >> lx >> ly >> rx >>
ry` fails; otherwise the two eye points. -/
def readEyePosition : EyeFile → Outcome (Point × Point)
  | EyeFile.unopenable => Outcome.exited 1
  | EyeFile.opened (some lx :: some ly :: some rx :: some ry :: _) =>
    Outcome.returned (⟨lx, ly⟩, ⟨rx, ry⟩)
  | EyeFile.opened _ => Outcome.exited 1

/-- The square of `norm(leftEye - rightEye)` (`mytrain.cpp:37`). -/
def eyeDistanceSq (leftEye rightEye : Point) : Nat :=
  ((leftEye.x - rightEye.x) ^ 2 + (leftEye.y - rightEye.y) ^ 2).toNat

/-- One coordinate of `(leftEye + rightEye) * 0.5` (`mytrain.cpp:41`). The
sum is an integer `Point`, and the OpenCV operator
`Point_<_Tp> operator * (const Point_<_Tp>& a, double b)` returns
`Point_<_Tp>(saturate_cast<_Tp>(a.x*b), saturate_cast<_Tp>(a.y*b))`: each
product is converted back to `int`, rounded to the nearest integer, a tie
going to the even one. Argument `n` is the integer sum, the product is
`n / 2`; integer division and remainder round down here. -/
def halfRounded (n : Int) : Int :=
  if n % 2 = 0 then n / 2
  else if (n / 2) % 2 = 0 then n / 2
  else n / 2 + 1

/-- The `Point2f eyesCenter` of `mytrain.cpp:41`: the rounded integer point,
converted to floats. -/
def eyesCenter (leftEye rightEye : Point) : ℚ × ℚ :=
  ((halfRounded (leftEye.x + rightEye.x) : ℚ), (halfRounded (leftEye.y + rightEye.y) : ℚ))

/-- A 2x3 affine matrix `[[a00, a01, b0], [a10, a11, b1]]`. -/
structure Affine where
  a00 : ℚ
  a01 : ℚ
  b0 : ℚ
  a10 : ℚ
  a11 : ℚ
  b1 : ℚ
  deriving DecidableEq, Repr

/-- OpenCV’s `getRotationMatrix2D(center, angle, scale)` at the angle `0` of
`mytrain.cpp:42`: with `alpha = scale * cos 0 = scale` and
`beta = scale * sin 0 = 0` the matrix is
`[[alpha, beta, (1 - alpha) cx - beta cy], [-beta, alpha, beta cx + (1 - alpha) cy]]`. -/
def getRotationMatrix2D (center : ℚ × ℚ) (scale : ℚ) : Affine :=
  let alpha := scale
  let beta := (0 : ℚ)
  ⟨alpha, beta, (1 - alpha) * center.1 - beta * center.2,
   -beta, alpha, beta * center.1 + (1 - alpha) * center.2⟩

/-- Where `warpAffine` (without `WARP_INVERSE_MAP`) sends the source point
`p` under the matrix `m`. -/
def Affine.apply (m : Affine) (p : ℚ × ℚ) : ℚ × ℚ :=
  (m.a00 * p.1 + m.a01 * p.2 + m.b0, m.a10 * p.1 + m.a11 * p.2 + m.b1)

/-- The number `scale` is the double `100.0 / norm(leftEye - rightEye)` of
`mytrain.cpp:39`: positive, with `scale² · ‖leftEye - rightEye‖² = 100²`. It
is rational exactly when the squared distance is a perfect square. -/
def IsScale (leftEye rightEye : Point) (scale : ℚ) : Prop :=
  0 < scale ∧ scale * scale * (eyeDistanceSq leftEye rightEye : ℚ) = 10000

/-- The matrix `rotMat` that `normalizeImage` hands to `warpAffine`
(`mytrain.cpp:41-42`), for the value `scale` of line 39. -/
def rotMat (leftEye rightEye : Point) (scale : ℚ) : Affine :=
  getRotationMatrix2D (eyesCenter leftEye rightEye) scale

/-- The conversion to `int` of `n * scale` in `Size(src.cols * scale,
src.rows * scale)` (`mytrain.cpp:44`), for `scale = 100 / √d2` with `d2 > 0`:
the integer part of `100 n / √d2`, which is the integer square root of
`⌊10000 n² / d2⌋`. -/
def scaledDim (n d2 : Nat) : Nat := Nat.sqrt (10000 * n * n / d2)

/-- Function `normalizeImage` (`mytrain.cpp:36-45`), as far as the
destination `dst` is concerned. `warpAffine` allocates `dst` with the
requested size, or with the size of `src` when the requested size is empty.
With coincident eyes `scale` is infinite and its conversion to `int` is not
defined by the language: the result is `none`. -/
def normalizeImage (src : Mat) (leftEye rightEye : Point) : Option Mat :=
  let d2 := eyeDistanceSq leftEye rightEye
  if d2 = 0 then none
  else
    let width := scaledDim src.cols d2
    let height := scaledDim src.rows d2
    if width = 0 ∨ height = 0 then some src else some ⟨height, width⟩

/-- The test `path.ends_with(".pgm")`. -/
def endsWithPgm (path : String) : Bool := ".pgm".toList.isSuffixOf path.toList

/-- One entry of the dataset folder as `main` meets it: its path, the `.eye`
file next to it (`none` when `fs::exists` is false) and what `imread` returns
for it (an empty `Mat` when the image cannot be loaded). -/
structure DirEntry where
  path : String
  eyeFile : Option EyeFile
  img : Mat
  deriving DecidableEq, Repr

/-- Outcome of the batch loop: the images collected, the process exit of
`readEyePosition`, or a run whose behaviour the language leaves undefined. -/
inductive Batch where
  | collected (images : List Mat)
  | exited (code : Int)
  | undefined
  deriving DecidableEq, Repr

/-- The loop of `main` over the directory (`mytrain.cpp:157-187`); `images`
is the vector built so far. -/
def assembleLoop : List DirEntry → List Mat → Batch
  | [], images => Batch.collected images
  | entry :: rest, images =>
    if endsWithPgm entry.path then
      match entry.eyeFile with
      | none => assembleLoop rest images
      | some file =>
        match readEyePosition file with
        | Outcome.exited code => Batch.exited code
        | Outcome.returned (leftEye, rightEye) =>
          if entry.img.empty then assembleLoop rest images
          else
            match normalizeImage entry.img leftEye rightEye with
            | none => Batch.undefined
            | some normalized =>
              if normalized.empty then assembleLoop rest images
              else assembleLoop rest (images ++ [normalized])
    else assembleLoop rest images

/-- Column count `images[0].rows * images[0].cols` of the data matrix
allocated at `mytrain.cpp:49`. -/
def dataCols (images : List Mat) : Nat :=
  match images with
  | [] => 0
  | first :: _ => first.rows * first.cols

/-- Length of the row `images[i].reshape(1, 1)` (`mytrain.cpp:52`). -/
def flattenedLength (m : Mat) : Nat := m.rows * m.cols

/-- The transform the specification describes: uniform scaling by `scale`
about the exact midpoint of the eyes. -/
def specTransform (leftEye rightEye : Point) (scale : ℚ) (p : ℚ × ℚ) : ℚ × ℚ :=
  let cx := ((leftEye.x : ℚ) + rightEye.x) / 2
  let cy := ((leftEye.y : ℚ) + rightEye.y) / 2
  (cx + scale * (p.1 - cx), cy + scale * (p.2 - cy))

end Train

/-! ## Recognition (`mytest.cpp`) -/

namespace Recognizer

/-- A single-channel `cv::Mat` with its elements in row-major order. -/
structure Mat where
  rows : Nat
  cols : Nat
  data : List ℚ
  deriving DecidableEq, Repr

/-- The test `Mat::empty()`: no element. -/
def Mat.empty (m : Mat) : Bool := m.rows == 0 || m.cols == 0

/-- Method `Mat::reshape(1, 1)`: the same elements as one row. -/
def Mat.reshape11 (m : Mat) : Mat := ⟨1, m.rows * m.cols, m.data⟩

/-- Row `k` of a matrix. -/
def Mat.row (m : Mat) (k : Nat) : List ℚ := (m.data.drop (k * m.cols)).take m.cols

/-- Whether `cv::subtract` takes a single-channel operand for a scalar: one
row and one column. -/
def Mat.isScalar (m : Mat) : Bool := m.rows == 1 && m.cols == 1

/-- The difference `a - b` of two matrices as `cv::subtract` computes it,
which is how the expression `faceVector - meanVector` is evaluated: element
by element when the sizes agree; otherwise, in the words of the OpenCV
documentation, the "difference between a scalar and an array, when src1 ...
has the same number of elements as `src2.channels()`" and the "difference
between an array and a scalar" in the symmetric case, so that a one-element
operand of these single-channel matrices is taken for a scalar (the first
operand is examined first); otherwise a `cv::Exception` (`none`). -/
def subtract (a b : Mat) : Option Mat :=
  if a.rows = b.rows ∧ a.cols = b.cols then
    some ⟨a.rows, a.cols, List.zipWith (fun x y => x - y) a.data b.data⟩
  else if a.isScalar then some ⟨b.rows, b.cols, b.data.map (fun y => a.data.headD 0 - y)⟩
  else if b.isScalar then some ⟨a.rows, a.cols, a.data.map (fun x => x - b.data.headD 0)⟩
  else none

/-- Inner product of two rows. -/
def dot (u v : List ℚ) : ℚ := (List.zipWith (fun x y => x * y) u v).sum

/-- The product `a * e.t()`: a `cv::Exception` (`none`) unless `a` has as many
columns as `e`; entry `(i, k)` is the inner product of row `i` of `a` and row
`k` of `e`. -/
def mulTransposed (a e : Mat) : Option Mat :=
  if a.cols = e.cols then
    some ⟨a.rows, e.rows,
      (List.range a.rows).flatMap (fun i => (List.range e.rows).map (fun k => dot (a.row i) (e.row k)))⟩
  else none

/-- Function `projectToPCA` (`mytest.cpp:41-50`). -/
def projectToPCA (face meanFace eigenfaces : Mat) : Option Mat :=
  let faceVector := face.reshape11
  let meanVector := meanFace.reshape11
  match subtract faceVector meanVector with
  | none => none
  | some centered => mulTransposed centered eigenfaces

/-- The sum of the squared differences of two rows. -/
def sumSqDiff (u v : List ℚ) : ℚ := (List.zipWith (fun x y => (x - y) ^ 2) u v).sum

/-- Function `computeEuclideanDistance` (`mytest.cpp:53-55`), by the square of
the value `norm(vec1, vec2, NORM_L2)` it returns; `cv::norm` raises a
`cv::Exception` (`none`) when the two sizes differ. -/
def computeEuclideanDistanceSq (vec1 vec2 : Mat) : Option ℚ :=
  if vec1.rows = vec2.rows ∧ vec1.cols = vec2.cols then some (sumSqDiff vec1.data vec2.data)
  else none

/-- The constant `DBL_MAX`. -/
def DBL_MAX : ℚ := 2 ^ 1024 - 2 ^ 971

/-- The variables of `main` that the dataset loop updates: `minDistance` (by
its square), `bestMatchIndex` and `datasetLabels`. -/
structure MatchState where
  minDistanceSq : ℚ
  bestMatchIndex : Int
  datasetLabels : List String
  deriving DecidableEq, Repr

/-- The state before the loop (`mytest.cpp:94-97`). -/
def initialState : MatchState := ⟨DBL_MAX ^ 2, -1, []⟩

/-- Lines 113-122 of `mytest.cpp` for one dataset projection: the distance,
the update under `distance < minDistance`, and the `push_back` of the label.
Distances are non-negative, so they compare as their squares do. -/
def matchStep (inputProjection : Mat) (s : MatchState) (path : String)
    (datasetProjection : Mat) : Option MatchState :=
  match computeEuclideanDistanceSq inputProjection datasetProjection with
  | none => none
  | some distanceSq =>
    if distanceSq < s.minDistanceSq then
      some ⟨distanceSq, (s.datasetLabels.length : Int), s.datasetLabels ++ [path]⟩
    else some ⟨s.minDistanceSq, s.bestMatchIndex, s.datasetLabels ++ [path]⟩

/-- The matching loop over a sequence of labelled projections: `matchStep`
for each entry in order. -/
def matchLoop (inputProjection : Mat) : List (String × Mat) → MatchState → Option MatchState
  | [], s => some s
  | (path, datasetProjection) :: rest, s =>
    match matchStep inputProjection s path datasetProjection with
    | none => none
    | some s1 => matchLoop inputProjection rest s1

/-- What `main` reports after the loop (`mytest.cpp:127-154`): the label at
`bestMatchIndex` with the squared minimum distance, or no match when
`bestMatchIndex` is still `-1`. -/
def report (s : MatchState) : Option (String × ℚ) :=
  if s.bestMatchIndex ≠ -1 then
    match s.datasetLabels[s.bestMatchIndex.toNat]? with
    | some label => some (label, s.minDistanceSq)
    | none => none
  else none

/-- The test `path.ends_with(".pgm")`. -/
def endsWithPgm (path : String) : Bool := ".pgm".toList.isSuffixOf path.toList

/-- The loop of `main` over the dataset folder (`mytest.cpp:99-124`). An entry
is a path with what `imread` returns for it; `resize src width height` stands
for `cv::resize(src, dst, Size(width, height))`. The result is `none` when a
`cv::Exception` leaves the loop. -/
def datasetLoop (resize : Mat → Nat → Nat → Mat) (meanFace eigenfaces inputProjection : Mat) :
    List (String × Mat) → MatchState → Option MatchState
  | [], s => some s
  | (path, datasetImage) :: rest, s =>
    if endsWithPgm path then
      if datasetImage.empty then
        datasetLoop resize meanFace eigenfaces inputProjection rest s
      else
        match projectToPCA (resize datasetImage meanFace.cols meanFace.rows) meanFace eigenfaces with
        | none => none
        | some datasetProjection =>
          match matchStep inputProjection s path datasetProjection with
          | none => none
          | some s1 => datasetLoop resize meanFace eigenfaces inputProjection rest s1
    else datasetLoop resize meanFace eigenfaces inputProjection rest s

/-- The labelled projections the dataset loop compares with the query, in
order: one for each `.pgm` entry whose image loads and projects. -/
def candidates (resize : Mat → Nat → Nat → Mat) (meanFace eigenfaces : Mat)
    (dataset : List (String × Mat)) : List (String × Mat) :=
  dataset.filterMap (fun entry =>
    if endsWithPgm entry.1 = true ∧ entry.2.empty = false then
      (projectToPCA (resize entry.2 meanFace.cols meanFace.rows) meanFace eigenfaces).map
        (fun p => (entry.1, p))
    else none)

/-- How a run of `main` ends as far as the match is concerned. -/
inductive Run where
  | reported (result : Option (String × ℚ))
  | returned (code : Int)
  | threw
  deriving DecidableEq, Repr

/-- Function `main` of `mytest.cpp` from the loaded input image and model on
(lines 68-154). `loadModel` fails on an empty `meanFace` or `eigenfaces`. -/
def recognize (resize : Mat → Nat → Nat → Mat) (inputFace meanFace eigenfaces : Mat)
    (dataset : List (String × Mat)) : Run :=
  if inputFace.empty then Run.returned (-1)
  else if meanFace.empty || eigenfaces.empty then Run.returned (-1)
  else
    match projectToPCA (resize inputFace meanFace.cols meanFace.rows) meanFace eigenfaces with
    | none => Run.threw
    | some inputProjection =>
      match datasetLoop resize meanFace eigenfaces inputProjection dataset initialState with
      | none => Run.threw
      | some s => Run.reported (report s)

end Recognizer

/-! # Theorems -/

/-! ## Component selection -/

theorem energyReached_iff (c t e : ℚ) :
    energyReached c t e = true ↔ RatioAtLeast c t e := by
  unfold energyReached RatioAtLeast
  by_cases ht : t = 0
  · simp [ht]
  · simp [ht]

theorem energyReached_mono (c t e1 e2 : ℚ) (h : e1 ≤ e2)
    (h2 : energyReached c t e2 = true) : energyReached c t e1 = true := by
  unfold energyReached at h2 ⊢
  by_cases ht : t = 0
  · simpa [ht] using h2
  · simp only [ht, if_false, decide_eq_true_eq] at h2 ⊢
    have : e1 / 100 ≤ e2 / 100 := by linarith
    linarith

/-- The loop ends with `0` exactly when the test holds at no position. -/
theorem selectLoop_eq_zero_iff (t e : ℚ) :
    ∀ (l : List ℚ) (i : Nat) (c : ℚ),
      selectLoop t e l i c = 0 ↔
        ∀ m, m < l.length → energyReached (c + (l.take (m + 1)).sum) t e = false := by
  intro l
  induction l with
  | nil => intro i c; simp [selectLoop]
  | cons ev rest ih =>
    intro i c
    by_cases h0 : energyReached (c + ev) t e = true
    · simp only [selectLoop, h0, if_true]
      constructor
      · intro h; omega
      · intro h
        have := h 0 (by simp)
        simp [h0] at this
    · have h0f : energyReached (c + ev) t e = false := by simpa using h0
      simp only [selectLoop, h0f, Bool.false_eq_true, if_false]
      rw [ih (i + 1) (c + ev)]
      constructor
      · intro h m hm
        cases m with
        | zero => simpa using h0f
        | succ m =>
          have := h m (by simpa using hm)
          simpa [List.take_succ_cons, add_assoc] using this
      · intro h m hm
        have := h (m + 1) (by simpa using hm)
        simpa [List.take_succ_cons, add_assoc] using this

/-- A non-zero result of the loop is one past the first position where the
test holds. -/
theorem selectLoop_first (t e : ℚ) :
    ∀ (l : List ℚ) (i : Nat) (c : ℚ), selectLoop t e l i c ≠ 0 →
      ∃ j, j < l.length ∧ selectLoop t e l i c = i + j + 1 ∧
        energyReached (c + (l.take (j + 1)).sum) t e = true ∧
        ∀ m, m < j → energyReached (c + (l.take (m + 1)).sum) t e = false := by
  intro l
  induction l with
  | nil => intro i c h; simp [selectLoop] at h
  | cons ev rest ih =>
    intro i c h
    by_cases h0 : energyReached (c + ev) t e = true
    · refine ⟨0, by simp, by simp [selectLoop, h0], by simpa using h0, ?_⟩
      intro m hm; omega
    · have h0f : energyReached (c + ev) t e = false := by simpa using h0
      have hstep : selectLoop t e (ev :: rest) i c = selectLoop t e rest (i + 1) (c + ev) := by
        simp [selectLoop, h0f]
      rw [hstep] at h
      obtain ⟨j, hj, hk, hr, hb⟩ := ih (i + 1) (c + ev) h
      refine ⟨j + 1, by simpa using hj, by rw [hstep, hk]; omega, ?_, ?_⟩
      · simpa [List.take_succ_cons, add_assoc] using hr
      · intro m hm
        cases m with
        | zero => simpa using h0f
        | succ m =>
          have := hb m (by omega)
          simpa [List.take_succ_cons, add_assoc] using this

theorem numComponents_le_length (evs : List ℚ) (e : ℚ) :
    numComponents evs e ≤ evs.length := by
  by_cases h : numComponents evs e = 0
  · omega
  · obtain ⟨j, hj, hk, -, -⟩ := selectLoop_first evs.sum e evs 0 0 h
    unfold numComponents; omega

/-- C3. For a fixed eigenvalue list and energy percentages `e1 < e2` for
which selection at `e2` succeeds, the count selected at `e1` is at least one
and at most the count selected at `e2`; and when `computeEigenfaces` returns a
model for both, the model for `e1` has no more rows than the one for `e2`. -/
theorem numComponents_mono (evs : List ℚ) (e1 e2 : ℚ) (h12 : e1 < e2)
    (hK2 : 1 ≤ numComponents evs e2) :
    (1 ≤ numComponents evs e1 ∧ numComponents evs e1 ≤ numComponents evs e2) ∧
    ∀ (mean : List ℚ) (vecs : List (List ℚ)) (m1 m2 : List ℚ) (V1 V2 : List (List ℚ)),
      computeEigenfaces ⟨mean, evs, vecs⟩ e1 [] [] = Outcome.returned (m1, V1) →
      computeEigenfaces ⟨mean, evs, vecs⟩ e2 [] [] = Outcome.returned (m2, V2) →
      V1.length ≤ V2.length := by
  have hne : selectLoop evs.sum e2 evs 0 0 ≠ 0 := by
    unfold numComponents at hK2; omega
  obtain ⟨j, hj, hk, hr, hb⟩ := selectLoop_first evs.sum e2 evs 0 0 hne
  have hr1 : energyReached (0 + (evs.take (j + 1)).sum) evs.sum e1 = true :=
    energyReached_mono _ _ e1 e2 (le_of_lt h12) hr
  have hne1 : selectLoop evs.sum e1 evs 0 0 ≠ 0 := by
    intro h0
    rw [selectLoop_eq_zero_iff] at h0
    rw [h0 j hj] at hr1
    exact Bool.false_ne_true hr1
  obtain ⟨j1, hj1, hk1, hr1', hb1⟩ := selectLoop_first evs.sum e1 evs 0 0 hne1
  have hjj : j1 ≤ j := by
    by_contra hlt
    have := hb1 j (by omega)
    rw [this] at hr1
    exact Bool.false_ne_true hr1
  have hmain : 1 ≤ numComponents evs e1 ∧ numComponents evs e1 ≤ numComponents evs e2 := by
    unfold numComponents; omega
  refine ⟨hmain, ?_⟩
  intro mean vecs m1 m2 V1 V2 h1 h2
  unfold computeEigenfaces at h1 h2
  by_cases hnil : evs = []
  · simp [hnil] at h1 h2
    rw [h1.2, h2.2]
  · have hp1 : ¬ numComponents evs e1 ≤ 0 := by omega
    have hp2 : ¬ numComponents evs e2 ≤ 0 := by omega
    simp only [hnil, if_false, hp1, hp2, Outcome.returned.injEq, Prod.mk.injEq] at h1 h2
    rw [← h1.2, ← h2.2]
    simp only [List.length_take]
    omega

theorem numComponents_mono_witness :
    (1 ≤ numComponents [3, 2, 1] 40 ∧ numComponents [3, 2, 1] 40 ≤ numComponents [3, 2, 1] 80) ∧
    ∀ (mean : List ℚ) (vecs : List (List ℚ)) (m1 m2 : List ℚ) (V1 V2 : List (List ℚ)),
      computeEigenfaces ⟨mean, [3, 2, 1], vecs⟩ 40 [] [] = Outcome.returned (m1, V1) →
      computeEigenfaces ⟨mean, [3, 2, 1], vecs⟩ 80 [] [] = Outcome.returned (m2, V2) →
      V1.length ≤ V2.length :=
  numComponents_mono [3, 2, 1] 40 80 (by norm_num)
    (by norm_num [numComponents, selectLoop, energyReached])

theorem trainAndSave_exits_of_unreached (pca : PCA) (e : ℚ)
    (hne : pca.eigenvalues ≠ [])
    (hnone : ∀ K, 1 ≤ K → K ≤ pca.eigenvalues.length →
      ¬ RatioAtLeast (pca.eigenvalues.take K).sum pca.eigenvalues.sum e) :
    trainAndSave pca e = Outcome.exited 1 := by
  have h0 : numComponents pca.eigenvalues e = 0 := by
    unfold numComponents
    rw [selectLoop_eq_zero_iff]
    intro m hm
    have := hnone (m + 1) (by omega) (by omega)
    rw [← energyReached_iff] at this
    simpa using this
  simp [trainAndSave, computeEigenfaces, hne, h0]

/-- C6 (code at the failing input, with the part of the claim the code
keeps). With an empty eigenvalue list `computeEigenfaces` returns through
line 65 and `main` saves the untouched, empty `meanFace` and `eigenVectors`;
with a non-empty list of which no prefix reaches the threshold, training
ends through `exit(1)` and nothing is saved. -/
theorem trainAndSave_empty_eigenvalues :
    (∀ (mean : List ℚ) (vecs : List (List ℚ)) (e : ℚ),
      trainAndSave ⟨mean, [], vecs⟩ e = Outcome.returned ([], [])) ∧
    (∀ (pca : PCA) (e : ℚ), pca.eigenvalues ≠ [] →
      (∀ K, 1 ≤ K → K ≤ pca.eigenvalues.length →
        ¬ RatioAtLeast (pca.eigenvalues.take K).sum pca.eigenvalues.sum e) →
      trainAndSave pca e = Outcome.exited 1) := by
  refine ⟨?_, trainAndSave_exits_of_unreached⟩
  intro mean vecs e
  simp [trainAndSave, computeEigenfaces]

theorem trainAndSave_empty_eigenvalues_witness :
    trainAndSave ⟨[1, 2], [], [[1, 0]]⟩ 95 = Outcome.returned ([], []) ∧
    trainAndSave ⟨[1, 2], [0, 0], [[1, 0], [0, 1]]⟩ 95 = Outcome.exited 1 :=
  ⟨trainAndSave_empty_eigenvalues.1 [1, 2] [[1, 0]] 95,
    trainAndSave_empty_eigenvalues.2 ⟨[1, 2], [0, 0], [[1, 0], [0, 1]]⟩ 95 (by simp)
      (by
        intro K _ _
        have hs : ([0, 0] : List ℚ).sum = 0 := by norm_num
        have hnp : ∀ k, ¬ (0 : ℚ) < (([0, 0] : List ℚ).take k).sum := by
          intro k
          rcases k with _ | _ | k <;> simp
        simp only [RatioAtLeast, hs]
        intro h
        rcases h with ⟨h1, _⟩ | ⟨_, h2⟩
        · exact h1 rfl
        · exact hnp K h2)⟩


/-! ## Normalization and batch assembly -/

namespace Train

theorem scaledDim_spec (n d2 : Nat) (hd : 0 < d2) :
    scaledDim n d2 * scaledDim n d2 * d2 ≤ 10000 * n * n ∧
      10000 * n * n < (scaledDim n d2 + 1) * (scaledDim n d2 + 1) * d2 := by
  unfold scaledDim
  constructor
  · have h := Nat.sqrt_le (10000 * n * n / d2)
    calc (10000 * n * n / d2).sqrt * (10000 * n * n / d2).sqrt * d2
        ≤ (10000 * n * n / d2) * d2 := Nat.mul_le_mul_right _ h
      _ ≤ 10000 * n * n := Nat.div_mul_le_self _ _
  · have h := Nat.lt_succ_sqrt (10000 * n * n / d2)
    rw [Nat.div_lt_iff_lt_mul hd] at h
    exact h

/-- The matrix of `normalizeImage` scales by `scale` about `eyesCenter`. -/
theorem rotMat_apply (leftEye rightEye : Point) (scale : ℚ) (p : ℚ × ℚ) :
    (rotMat leftEye rightEye scale).apply p =
      ((eyesCenter leftEye rightEye).1 + scale * (p.1 - (eyesCenter leftEye rightEye).1),
       (eyesCenter leftEye rightEye).2 + scale * (p.2 - (eyesCenter leftEye rightEye).2)) := by
  simp only [rotMat, getRotationMatrix2D, Affine.apply]
  ext <;> simp <;> ring

theorem halfRounded_even (n : Int) (h : n % 2 = 0) : ((halfRounded n : Int) : ℚ) = (n : ℚ) / 2 := by
  unfold halfRounded
  rw [if_pos h]
  have h2 : n = 2 * (n / 2) := by omega
  rw [eq_div_iff (by norm_num)]
  exact_mod_cast (by omega : n / 2 * 2 = n)

/-- C10 (code at the failing input). For `leftEye = (1, 0)` and
`rightEye = (2, 0)` the distance is `1` and `scale = 100`; the matrix built
by `normalizeImage` scales about the rounded centre `(2, 0)` and sends the
source point `(0, 0)` to `(-198, 0)`, while scaling about the exact midpoint
`(3/2, 0)` sends it to `(-297/2, 0)`. -/
theorem rotMat_center_rounded :
    IsScale ⟨1, 0⟩ ⟨2, 0⟩ 100 ∧
    eyesCenter ⟨1, 0⟩ ⟨2, 0⟩ = (2, 0) ∧
    (rotMat ⟨1, 0⟩ ⟨2, 0⟩ 100).apply (0, 0) = (-198, 0) ∧
    specTransform ⟨1, 0⟩ ⟨2, 0⟩ 100 (0, 0) = (-297 / 2, 0) := by
  have hd : eyeDistanceSq ⟨1, 0⟩ ⟨2, 0⟩ = 1 := by decide
  have hc : eyesCenter ⟨1, 0⟩ ⟨2, 0⟩ = (2, 0) := by
    have h1 : halfRounded 3 = 2 := by decide
    have h2 : halfRounded 0 = 0 := by decide
    simp [eyesCenter, h1, h2]
  refine ⟨⟨by norm_num, by rw [hd]; norm_num⟩, hc, ?_, ?_⟩
  · rw [rotMat_apply, hc]; norm_num
  · norm_num [specTransform]

theorem assembleLoop_append (pre rest : List DirEntry) :
    ∀ images, assembleLoop (pre ++ rest) images =
      match assembleLoop pre images with
      | Batch.collected images1 => assembleLoop rest images1
      | Batch.exited code => Batch.exited code
      | Batch.undefined => Batch.undefined := by
  induction pre with
  | nil => intro images; simp [assembleLoop]
  | cons entry pre ih =>
    intro images
    simp only [List.cons_append, assembleLoop]
    split
    · split
      · exact ih images
      · split
        · rfl
        · split
          · exact ih images
          · split
            · rfl
            · split
              · exact ih images
              · exact ih _
    · exact ih images

/-- C7 (amended). A malformed eye-annotation record is fatal: when the batch
loop reaches a `.pgm` item whose existing `.eye` file does not open or does
not yield four integers after its header line, the run ends through
`exit(1)`, whatever was collected before, and no later item is processed. -/
theorem assembleLoop_malformed_exits (pre : List DirEntry) (bad : DirEntry)
    (post : List DirEntry) (images images1 : List Mat) (file : EyeFile)
    (hpre : assembleLoop pre images = Batch.collected images1)
    (hpgm : endsWithPgm bad.path = true) (hfile : bad.eyeFile = some file)
    (hbad : ∀ lx ly rx ry rest,
      file ≠ EyeFile.opened (some lx :: some ly :: some rx :: some ry :: rest)) :
    assembleLoop (pre ++ bad :: post) images = Batch.exited 1 := by
  have hread : readEyePosition file = Outcome.exited 1 := by
    unfold readEyePosition
    split
    · rfl
    · rename_i lx ly rx ry rest
      exact absurd rfl (hbad lx ly rx ry rest)
    · rfl
  rw [assembleLoop_append, hpre]
  simp [assembleLoop, hpgm, hfile, hread]

theorem assembleLoop_malformed_exits_witness :
    assembleLoop
      ([⟨"a.pgm", some (EyeFile.opened [some 0, some 0, some 100, some 0]), ⟨4, 4⟩⟩] ++
        ⟨"b.pgm", some (EyeFile.opened [some 3, none]), ⟨4, 4⟩⟩ ::
        [⟨"c.pgm", some (EyeFile.opened [some 0, some 0, some 100, some 0]), ⟨4, 4⟩⟩]) [] =
      Batch.exited 1 :=
  assembleLoop_malformed_exits
    [⟨"a.pgm", some (EyeFile.opened [some 0, some 0, some 100, some 0]), ⟨4, 4⟩⟩]
    ⟨"b.pgm", some (EyeFile.opened [some 3, none]), ⟨4, 4⟩⟩
    [⟨"c.pgm", some (EyeFile.opened [some 0, some 0, some 100, some 0]), ⟨4, 4⟩⟩]
    [] [⟨4, 4⟩] (EyeFile.opened [some 3, none])
    (by
      have h : eyeDistanceSq ⟨0, 0⟩ ⟨100, 0⟩ = 10000 := by decide
      have e : endsWithPgm "a.pgm" = true := by decide
      norm_num [assembleLoop, e, readEyePosition, normalizeImage, h, scaledDim, Mat.empty])
    (by decide) rfl (by intro lx ly rx ry rest h; simp at h)

/-- C7 (counterexample). A batch whose first item has a truncated numeric
line (three integers) and whose second item is well-formed: the run ends
through `exit(1)` at the first item, although the second item alone would be
collected. -/
theorem assembleLoop_malformed_counterexample :
    assembleLoop
      [⟨"a.pgm", some (EyeFile.opened [some 0, some 0, some 100]), ⟨4, 4⟩⟩,
       ⟨"b.pgm", some (EyeFile.opened [some 0, some 0, some 100, some 0]), ⟨4, 4⟩⟩] [] =
      Batch.exited 1 ∧
    assembleLoop
      [⟨"b.pgm", some (EyeFile.opened [some 0, some 0, some 100, some 0]), ⟨4, 4⟩⟩] [] =
      Batch.collected [⟨4, 4⟩] := by
  have h : eyeDistanceSq ⟨0, 0⟩ ⟨100, 0⟩ = 10000 := by decide
  have e1 : endsWithPgm "a.pgm" = true := by decide
  have e2 : endsWithPgm "b.pgm" = true := by decide
  constructor
  · simp [assembleLoop, e1, readEyePosition]
  · norm_num [assembleLoop, e2, readEyePosition, normalizeImage, h, scaledDim, Mat.empty]

theorem normalizeImage_of_distance (src : Mat) (leftEye rightEye : Point) (d2 : Nat)
    (hd : eyeDistanceSq leftEye rightEye = d2) (normalized : Mat)
    (h : normalizeImage src leftEye rightEye = some normalized) :
    normalized =
      (if scaledDim src.cols d2 = 0 ∨ scaledDim src.rows d2 = 0 then src
       else ⟨scaledDim src.rows d2, scaledDim src.cols d2⟩) := by
  unfold normalizeImage at h
  rw [hd] at h
  by_cases h0 : d2 = 0
  · simp [h0] at h
  · simp only [h0, if_false] at h
    split at h
    · rename_i hz
      rw [if_pos hz]
      exact (Option.some.inj h).symm
    · rename_i hz
      rw [if_neg hz]
      exact (Option.some.inj h).symm

theorem assembleLoop_mem (src : Mat) (d2 : Nat) :
    ∀ (entries : List DirEntry) (acc images : List Mat),
      (∀ e ∈ entries, e.img.empty = false → e.img = src) →
      (∀ e ∈ entries, ∀ file leftEye rightEye, e.eyeFile = some file →
        readEyePosition file = Outcome.returned (leftEye, rightEye) →
        eyeDistanceSq leftEye rightEye = d2) →
      assembleLoop entries acc = Batch.collected images →
      ∀ m ∈ images, m ∈ acc ∨
        m = (if scaledDim src.cols d2 = 0 ∨ scaledDim src.rows d2 = 0 then src
             else ⟨scaledDim src.rows d2, scaledDim src.cols d2⟩) := by
  intro entries
  induction entries with
  | nil =>
    intro acc images _ _ h m hm
    simp only [assembleLoop, Batch.collected.injEq] at h
    subst h
    exact Or.inl hm
  | cons entry rest ih =>
    intro acc images hsrc hd h m hm
    have hsrc2 : ∀ e ∈ rest, e.img.empty = false → e.img = src :=
      fun e he => hsrc e (List.mem_cons_of_mem _ he)
    have hd2 : ∀ e ∈ rest, ∀ file leftEye rightEye, e.eyeFile = some file →
        readEyePosition file = Outcome.returned (leftEye, rightEye) →
        eyeDistanceSq leftEye rightEye = d2 :=
      fun e he => hd e (List.mem_cons_of_mem _ he)
    simp only [assembleLoop] at h
    split at h
    · split at h
      · exact ih acc images hsrc2 hd2 h m hm
      · rename_i file hfile
        split at h
        · exact absurd h (by simp)
        · rename_i leftEye rightEye hread
          split at h
          · exact ih acc images hsrc2 hd2 h m hm
          · rename_i hne
            split at h
            · exact absurd h (by simp)
            · rename_i normalized hnorm
              split at h
              · exact ih acc images hsrc2 hd2 h m hm
              · have hsame : entry.img = src :=
                  hsrc entry (List.mem_cons_self _ _) (by simpa using hne)
                have hdist := hd entry (List.mem_cons_self _ _) file leftEye rightEye hfile hread
                rw [hsame] at hnorm
                have hval := normalizeImage_of_distance src leftEye rightEye d2 hdist
                  normalized hnorm
                rcases ih (acc ++ [normalized]) images hsrc2 hd2 h m hm with h1 | h1
                · rcases List.mem_append.mp h1 with h2 | h2
                  · exact Or.inl h2
                  · right
                    rw [List.mem_singleton] at h2
                    rw [h2, hval]
                · exact Or.inr h1
    · exact ih acc images hsrc2 hd2 h m hm

/-- C8 (amended). The trainer checks no dimension: each admitted image keeps
its own normalized size. When all readable raw images of the batch have the
same dimensions and all annotations the same interocular distance, every
collected image has the same dimensions, and its flattening has exactly the
`P = rows × cols` columns of the data matrix. -/
theorem assembleLoop_same_dims (entries : List DirEntry) (images : List Mat)
    (src : Mat) (d2 : Nat)
    (hsrc : ∀ e ∈ entries, e.img.empty = false → e.img = src)
    (hd : ∀ e ∈ entries, ∀ file leftEye rightEye, e.eyeFile = some file →
      readEyePosition file = Outcome.returned (leftEye, rightEye) →
      eyeDistanceSq leftEye rightEye = d2)
    (h : assembleLoop entries [] = Batch.collected images) :
    (∀ m1 ∈ images, ∀ m2 ∈ images, m1 = m2) ∧
    (∀ m ∈ images, flattenedLength m = dataCols images) := by
  have hall := assembleLoop_mem src d2 entries [] images hsrc hd h
  have hall2 : ∀ m ∈ images,
      m = (if scaledDim src.cols d2 = 0 ∨ scaledDim src.rows d2 = 0 then src
           else ⟨scaledDim src.rows d2, scaledDim src.cols d2⟩) := by
    intro m hm
    rcases hall m hm with h1 | h1
    · simp at h1
    · exact h1
  have heq : ∀ m1 ∈ images, ∀ m2 ∈ images, m1 = m2 := by
    intro m1 h1 m2 h2
    rw [hall2 m1 h1, hall2 m2 h2]
  refine ⟨heq, ?_⟩
  intro m hm
  cases images with
  | nil => simp at hm
  | cons first rest =>
    have := heq m hm first (List.mem_cons_self _ _)
    simp [dataCols, flattenedLength, this]

theorem assembleLoop_same_dims_witness :
    (∀ m1 ∈ [(⟨8, 8⟩ : Mat), ⟨8, 8⟩], ∀ m2 ∈ [(⟨8, 8⟩ : Mat), ⟨8, 8⟩], m1 = m2) ∧
    (∀ m ∈ [(⟨8, 8⟩ : Mat), ⟨8, 8⟩], flattenedLength m = dataCols [⟨8, 8⟩, ⟨8, 8⟩]) :=
  assembleLoop_same_dims
    [⟨"a.pgm", some (EyeFile.opened [some 0, some 0, some 50, some 0]), ⟨4, 4⟩⟩,
     ⟨"b.pgm", some (EyeFile.opened [some 10, some 40, some 40, some 0]), ⟨4, 4⟩⟩]
    [⟨8, 8⟩, ⟨8, 8⟩] ⟨4, 4⟩ 2500
    (by
      intro e he _
      simp only [List.mem_cons, List.mem_singleton, List.not_mem_nil, or_false] at he
      rcases he with rfl | rfl <;> rfl)
    (by
      intro e he file leftEye rightEye hfile hread
      simp only [List.mem_cons, List.mem_singleton, List.not_mem_nil, or_false] at he
      rcases he with rfl | rfl
      · simp only [Option.some.injEq] at hfile
        subst hfile
        simp only [readEyePosition, Outcome.returned.injEq, Prod.mk.injEq] at hread
        rw [← hread.1, ← hread.2]
        decide
      · simp only [Option.some.injEq] at hfile
        subst hfile
        simp only [readEyePosition, Outcome.returned.injEq, Prod.mk.injEq] at hread
        rw [← hread.1, ← hread.2]
        decide)
    (by
      have h1 : eyeDistanceSq ⟨0, 0⟩ ⟨50, 0⟩ = 2500 := by decide
      have h2 : eyeDistanceSq ⟨10, 40⟩ ⟨40, 0⟩ = 2500 := by decide
      have e1 : endsWithPgm "a.pgm" = true := by decide
      have e2 : endsWithPgm "b.pgm" = true := by decide
      norm_num [assembleLoop, e1, e2, readEyePosition, normalizeImage, h1, h2, scaledDim,
        Mat.empty])

/-- C8 (counterexample). Two raw images of 4 × 4 pixels whose annotated eyes
are 100 and 50 pixels apart: both normalized images are collected, the first
of 4 × 4 and the second of 8 × 8 pixels, so the second flattens to 64 values
while the data matrix has 16 columns. -/
theorem assembleLoop_dims_counterexample :
    assembleLoop
      [⟨"a.pgm", some (EyeFile.opened [some 0, some 0, some 100, some 0]), ⟨4, 4⟩⟩,
       ⟨"b.pgm", some (EyeFile.opened [some 0, some 0, some 50, some 0]), ⟨4, 4⟩⟩] [] =
      Batch.collected [⟨4, 4⟩, ⟨8, 8⟩] ∧
    dataCols [⟨4, 4⟩, ⟨8, 8⟩] = 16 ∧ flattenedLength ⟨8, 8⟩ = 64 := by
  have h1 : eyeDistanceSq ⟨0, 0⟩ ⟨50, 0⟩ = 2500 := by decide
  have h2 : eyeDistanceSq ⟨0, 0⟩ ⟨100, 0⟩ = 10000 := by decide
  have e1 : endsWithPgm "a.pgm" = true := by decide
  have e2 : endsWithPgm "b.pgm" = true := by decide
  refine ⟨?_, by decide, by decide⟩
  norm_num [assembleLoop, e1, e2, readEyePosition, normalizeImage, h1, h2, scaledDim, Mat.empty]

end Train


/-! ## Projection and matching -/

namespace Recognizer

theorem mulTransposed_shape (a e p : Mat) (ha : a.rows = 1)
    (h : mulTransposed a e = some p) :
    a.cols = e.cols ∧ p.rows = 1 ∧ p.cols = e.rows ∧ p.data.length = e.rows := by
  unfold mulTransposed at h
  by_cases hc : a.cols = e.cols
  · rw [if_pos hc] at h
    have hp := (Option.some.inj h).symm
    subst hp
    refine ⟨hc, ha, rfl, ?_⟩
    simp [ha, List.range_succ]
  · rw [if_neg hc] at h
    exact absurd h (by simp)

theorem subtract_rows (a b : Mat) (ha : a.rows = 1) (hb : b.rows = 1) :
    (a.cols = b.cols → ∃ c, subtract a b = some c ∧ c.rows = 1 ∧ c.cols = a.cols) ∧
    (a.cols ≠ b.cols → a.cols = 1 →
      ∃ c, subtract a b = some c ∧ c.rows = 1 ∧ c.cols = b.cols) ∧
    (a.cols ≠ b.cols → a.cols ≠ 1 → b.cols = 1 →
      ∃ c, subtract a b = some c ∧ c.rows = 1 ∧ c.cols = a.cols) ∧
    (a.cols ≠ b.cols → a.cols ≠ 1 → b.cols ≠ 1 → subtract a b = none) := by
  refine ⟨?_, ?_, ?_, ?_⟩
  · intro h
    refine ⟨_, if_pos ⟨ha.trans hb.symm, h⟩, ha, rfl⟩
  · intro h h1
    have hn : ¬ (a.rows = b.rows ∧ a.cols = b.cols) := fun hh => h hh.2
    have hs : a.isScalar = true := by simp [Mat.isScalar, ha, h1]
    refine ⟨⟨b.rows, b.cols, b.data.map (fun y => a.data.headD 0 - y)⟩, ?_, hb, rfl⟩
    unfold subtract
    rw [if_neg hn, if_pos hs]
  · intro h h1 h2
    have hn : ¬ (a.rows = b.rows ∧ a.cols = b.cols) := fun hh => h hh.2
    have hs : ¬ a.isScalar = true := by simp [Mat.isScalar, ha, h1]
    have hs2 : b.isScalar = true := by simp [Mat.isScalar, hb, h2]
    refine ⟨⟨a.rows, a.cols, a.data.map (fun x => x - b.data.headD 0)⟩, ?_, ha, rfl⟩
    unfold subtract
    rw [if_neg hn, if_neg hs, if_pos hs2]
  · intro h h1 h2
    have hn : ¬ (a.rows = b.rows ∧ a.cols = b.cols) := fun hh => h hh.2
    have hs : ¬ a.isScalar = true := by simp [Mat.isScalar, ha, h1]
    have hs2 : ¬ b.isScalar = true := by simp [Mat.isScalar, hb, h2]
    unfold subtract
    rw [if_neg hn, if_neg hs, if_neg hs2]

theorem mulTransposed_isSome_iff (a e : Mat) :
    (∃ p, mulTransposed a e = some p) ↔ a.cols = e.cols := by
  unfold mulTransposed
  by_cases h : a.cols = e.cols
  · simp [h]
  · simp [h]

theorem projectToPCA_eq (face meanFace eigenfaces : Mat) :
    projectToPCA face meanFace eigenfaces =
      match subtract face.reshape11 meanFace.reshape11 with
      | none => none
      | some centered => mulTransposed centered eigenfaces := rfl

theorem projectToPCA_isSome_shapes (face meanFace eigenfaces : Mat) :
    (∃ p, projectToPCA face meanFace eigenfaces = some p) ↔
      (face.rows * face.cols = meanFace.rows * meanFace.cols ∧
          face.rows * face.cols = eigenfaces.cols) ∨
      (face.rows * face.cols ≠ meanFace.rows * meanFace.cols ∧ face.rows * face.cols = 1 ∧
          meanFace.rows * meanFace.cols = eigenfaces.cols) ∨
      (face.rows * face.cols ≠ meanFace.rows * meanFace.cols ∧
          meanFace.rows * meanFace.cols = 1 ∧ face.rows * face.cols = eigenfaces.cols) := by
  obtain ⟨hA, hB, hC, hD⟩ := subtract_rows face.reshape11 meanFace.reshape11 rfl rfl
  have hfc : face.reshape11.cols = face.rows * face.cols := rfl
  have hmc : meanFace.reshape11.cols = meanFace.rows * meanFace.cols := rfl
  rw [hfc, hmc] at hA hB hC hD
  rw [projectToPCA_eq]
  by_cases h1 : face.rows * face.cols = meanFace.rows * meanFace.cols
  · obtain ⟨c, hc, -, hcols⟩ := hA h1
    rw [hc]
    simp only []
    rw [mulTransposed_isSome_iff, hcols]
    constructor
    · intro h; exact Or.inl ⟨h1, h⟩
    · rintro (h | h | h)
      · exact h.2
      · exact absurd h1 h.1
      · exact absurd h1 h.1
  · by_cases h3 : face.rows * face.cols = 1
    · obtain ⟨c, hc, -, hcols⟩ := hB h1 h3
      rw [hc]
      simp only []
      rw [mulTransposed_isSome_iff, hcols]
      constructor
      · intro h; exact Or.inr (Or.inl ⟨h1, h3, h⟩)
      · rintro (h | h | h)
        · exact absurd h.1 h1
        · exact h.2.2
        · exact absurd (h3.trans h.2.1.symm) h1
    · by_cases h5 : meanFace.rows * meanFace.cols = 1
      · obtain ⟨c, hc, -, hcols⟩ := hC h1 h3 h5
        rw [hc]
        simp only []
        rw [mulTransposed_isSome_iff, hcols]
        constructor
        · intro h; exact Or.inr (Or.inr ⟨h1, h5, h⟩)
        · rintro (h | h | h)
          · exact absurd h.1 h1
          · exact absurd h.2.1 h3
          · exact h.2.2
      · rw [hD h1 h3 h5]
        simp only []
        constructor
        · rintro ⟨p, hp⟩; exact absurd hp (by simp)
        · rintro (h | h | h)
          · exact absurd h.1 h1
          · exact absurd h.2.1 h3
          · exact absurd h.2.1 h5

theorem projectToPCA_shape (face meanFace eigenfaces p : Mat)
    (h : projectToPCA face meanFace eigenfaces = some p) :
    p.rows = 1 ∧ p.cols = eigenfaces.rows ∧ p.data.length = eigenfaces.rows := by
  rw [projectToPCA_eq] at h
  cases hs : subtract face.reshape11 meanFace.reshape11 with
  | none => rw [hs] at h; exact absurd h (by simp)
  | some centered =>
    rw [hs] at h
    have hrows : centered.rows = 1 := by
      unfold subtract at hs
      split at hs
      · rw [← Option.some.inj hs]; rfl
      · split at hs
        · rw [← Option.some.inj hs]; rfl
        · split at hs
          · rw [← Option.some.inj hs]; rfl
          · exact absurd hs (by simp)
    exact (mulTransposed_shape centered eigenfaces p hrows h).2

/-- C9 (amended). Function `projectToPCA` returns a projection exactly when
the flattened image has as many elements as `meanFace` and as `eigenfaces` has
columns, or when one of the flattened image and `meanFace` has a single
element (it is then subtracted as a scalar) and the other has as many
elements as `eigenfaces` has columns; in every other case it raises an
exception. A returned projection is one row of `K = eigenfaces.rows` values. -/
theorem projectToPCA_some_iff (face meanFace eigenfaces : Mat) :
    ((∃ p, projectToPCA face meanFace eigenfaces = some p) ↔
      (face.rows * face.cols = meanFace.rows * meanFace.cols ∧
          face.rows * face.cols = eigenfaces.cols) ∨
      (face.rows * face.cols ≠ meanFace.rows * meanFace.cols ∧ face.rows * face.cols = 1 ∧
          meanFace.rows * meanFace.cols = eigenfaces.cols) ∨
      (face.rows * face.cols ≠ meanFace.rows * meanFace.cols ∧
          meanFace.rows * meanFace.cols = 1 ∧ face.rows * face.cols = eigenfaces.cols)) ∧
    (∀ p, projectToPCA face meanFace eigenfaces = some p →
      p.rows = 1 ∧ p.cols = eigenfaces.rows ∧ p.data.length = eigenfaces.rows) :=
  ⟨projectToPCA_isSome_shapes face meanFace eigenfaces,
    fun p h => projectToPCA_shape face meanFace eigenfaces p h⟩

theorem projectToPCA_some_iff_witness :
    (⟨1, 1, [5]⟩ : Mat).rows = 1 ∧ (⟨1, 1, [5]⟩ : Mat).cols = (⟨1, 2, [1, 0]⟩ : Mat).rows ∧
      (⟨1, 1, [5]⟩ : Mat).data.length = (⟨1, 2, [1, 0]⟩ : Mat).rows :=
  (projectToPCA_some_iff ⟨1, 2, [5, 7]⟩ ⟨1, 2, [0, 0]⟩ ⟨1, 2, [1, 0]⟩).2 ⟨1, 1, [5]⟩
    (by norm_num [projectToPCA, subtract, mulTransposed, Mat.reshape11, Mat.row, dot,
      List.range, List.range.loop])

/-- C9 (counterexample). An image of one pixel against a model with `P = 2`
(a mean of two elements, principal directions of two columns): the pixel is
subtracted from the mean as a scalar and `projectToPCA` returns the
projection `[6]` without an error. -/
theorem projectToPCA_scalar_counterexample :
    projectToPCA ⟨1, 1, [7]⟩ ⟨1, 2, [1, 2]⟩ ⟨1, 2, [1, 0]⟩ = some ⟨1, 1, [6]⟩ := by
  norm_num [projectToPCA, subtract, mulTransposed, Mat.reshape11, Mat.row, dot, Mat.isScalar,
    List.range, List.range.loop]

theorem sumSqDiff_nonneg : ∀ (u v : List ℚ), 0 ≤ sumSqDiff u v := by
  intro u
  induction u with
  | nil => intro v; simp [sumSqDiff]
  | cons a u ih =>
    intro v
    cases v with
    | nil => simp [sumSqDiff]
    | cons b v =>
      have h1 := ih v
      have h2 : 0 ≤ (a - b) ^ 2 := sq_nonneg _
      unfold sumSqDiff at h1 ⊢
      simp only [List.zipWith_cons_cons, List.sum_cons]
      linarith

theorem sumSqDiff_self : ∀ (u : List ℚ), sumSqDiff u u = 0 := by
  intro u
  induction u with
  | nil => simp [sumSqDiff]
  | cons a u ih =>
    unfold sumSqDiff at ih ⊢
    simp only [List.zipWith_cons_cons, List.sum_cons, ih]
    norm_num

theorem eq_of_sumSqDiff_eq_zero :
    ∀ (u v : List ℚ), u.length = v.length → sumSqDiff u v = 0 → u = v := by
  intro u
  induction u with
  | nil =>
    intro v hlen _
    cases v with
    | nil => rfl
    | cons b v => simp at hlen
  | cons a u ih =>
    intro v hlen h
    cases v with
    | nil => simp at hlen
    | cons b v =>
      have hrest := sumSqDiff_nonneg u v
      have hsq : 0 ≤ (a - b) ^ 2 := sq_nonneg _
      have hsum : (a - b) ^ 2 + sumSqDiff u v = 0 := by
        unfold sumSqDiff at h ⊢
        simpa [List.zipWith_cons_cons, List.sum_cons] using h
      have h1 : (a - b) ^ 2 = 0 := by linarith
      have h2 : sumSqDiff u v = 0 := by linarith
      have hab : a = b := by
        have := pow_eq_zero_iff (two_ne_zero) |>.mp h1
        linarith
      have huv : u = v := ih v (by simpa using hlen) h2
      rw [hab, huv]

theorem computeEuclideanDistanceSq_of_size (q p : Mat)
    (h : q.rows = p.rows ∧ q.cols = p.cols) :
    computeEuclideanDistanceSq q p = some (sumSqDiff q.data p.data) := by
  unfold computeEuclideanDistanceSq
  rw [if_pos h]

/-- Invariant of the matching loop: labels are appended in order, and either
no entry beat the incoming minimum, or the state holds the first entry of
smallest distance. -/
theorem matchLoop_spec (q : Mat) :
    ∀ (refs : List (String × Mat)) (s : MatchState),
      (∀ r ∈ refs, q.rows = r.2.rows ∧ q.cols = r.2.cols) →
      ∃ s1, matchLoop q refs s = some s1 ∧
        s1.datasetLabels = s.datasetLabels ++ refs.map Prod.fst ∧
        ((s1.minDistanceSq = s.minDistanceSq ∧ s1.bestMatchIndex = s.bestMatchIndex ∧
            ∀ r ∈ refs, s.minDistanceSq ≤ sumSqDiff q.data r.2.data) ∨
          (∃ i r, refs[i]? = some r ∧ s1.minDistanceSq = sumSqDiff q.data r.2.data ∧
            s1.bestMatchIndex = ((s.datasetLabels.length + i : Nat) : Int) ∧
            sumSqDiff q.data r.2.data < s.minDistanceSq ∧
            ∀ j r1, refs[j]? = some r1 →
              sumSqDiff q.data r.2.data ≤ sumSqDiff q.data r1.2.data ∧
              (j < i → sumSqDiff q.data r.2.data < sumSqDiff q.data r1.2.data))) := by
  intro refs
  induction refs with
  | nil =>
    intro s _
    exact ⟨s, rfl, by simp, Or.inl ⟨rfl, rfl, by simp⟩⟩
  | cons x rest ih =>
    intro s hsize
    obtain ⟨path, p⟩ := x
    have hx := hsize (path, p) (List.mem_cons_self _ _)
    have hrest : ∀ r ∈ rest, q.rows = r.2.rows ∧ q.cols = r.2.cols :=
      fun r hr => hsize r (List.mem_cons_of_mem _ hr)
    have hdist := computeEuclideanDistanceSq_of_size q p hx
    by_cases hlt : sumSqDiff q.data p.data < s.minDistanceSq
    · have hstep : matchLoop q ((path, p) :: rest) s =
          matchLoop q rest
            ⟨sumSqDiff q.data p.data, (s.datasetLabels.length : Int), s.datasetLabels ++ [path]⟩ := by
        simp [matchLoop, matchStep, hdist, hlt]
      obtain ⟨s1, hloop, hlabels, halt⟩ := ih
        ⟨sumSqDiff q.data p.data, (s.datasetLabels.length : Int), s.datasetLabels ++ [path]⟩ hrest
      refine ⟨s1, by rw [hstep]; exact hloop, by simpa using hlabels, Or.inr ?_⟩
      rcases halt with ⟨hmin, hbest, hall⟩ | ⟨i, r, hi, hmin, hbest, hless, hall⟩
      · refine ⟨0, (path, p), by simp, hmin, by simpa using hbest, hlt, ?_⟩
        intro j r1 hj
        cases j with
        | zero =>
          simp only [List.getElem?_cons_zero, Option.some.injEq] at hj
          subst hj
          exact ⟨le_refl _, fun h => absurd h (by omega)⟩
        | succ j =>
          simp only [List.getElem?_cons_succ] at hj
          exact ⟨hall r1 (List.getElem?_mem hj), fun h => absurd h (by omega)⟩
      · refine ⟨i + 1, r, by simpa using hi, hmin, ?_, lt_trans hless hlt, ?_⟩
        · rw [hbest]
          simp only [List.length_append, List.length_singleton]
          push_cast
          ring
        · intro j r1 hj
          cases j with
          | zero =>
            simp only [List.getElem?_cons_zero, Option.some.injEq] at hj
            subst hj
            exact ⟨le_of_lt hless, fun _ => hless⟩
          | succ j =>
            simp only [List.getElem?_cons_succ] at hj
            obtain ⟨h1, h2⟩ := hall j r1 hj
            exact ⟨h1, fun h => h2 (by omega)⟩
    · have hstep : matchLoop q ((path, p) :: rest) s =
          matchLoop q rest ⟨s.minDistanceSq, s.bestMatchIndex, s.datasetLabels ++ [path]⟩ := by
        simp [matchLoop, matchStep, hdist, hlt]
      obtain ⟨s1, hloop, hlabels, halt⟩ := ih
        ⟨s.minDistanceSq, s.bestMatchIndex, s.datasetLabels ++ [path]⟩ hrest
      refine ⟨s1, by rw [hstep]; exact hloop, by simpa using hlabels, ?_⟩
      rcases halt with ⟨hmin, hbest, hall⟩ | ⟨i, r, hi, hmin, hbest, hless, hall⟩
      · left
        refine ⟨hmin, hbest, ?_⟩
        intro r hr
        rcases List.mem_cons.mp hr with h | h
        · rw [h]; exact not_lt.mp hlt
        · exact hall r h
      · right
        refine ⟨i + 1, r, by simpa using hi, hmin, ?_, hless, ?_⟩
        · rw [hbest]
          simp only [List.length_append, List.length_singleton]
          push_cast
          ring
        · intro j r1 hj
          cases j with
          | zero =>
            simp only [List.getElem?_cons_zero, Option.some.injEq] at hj
            subst hj
            have : sumSqDiff q.data r.2.data < sumSqDiff q.data p.data :=
              lt_of_lt_of_le hless (not_lt.mp hlt)
            exact ⟨le_of_lt this, fun _ => this⟩
          | succ j =>
            simp only [List.getElem?_cons_succ] at hj
            obtain ⟨h1, h2⟩ := hall j r1 hj
            exact ⟨h1, fun h => h2 (by omega)⟩

theorem report_of_index (s : MatchState) (i : Nat) (label : String)
    (hb : s.bestMatchIndex = (i : Int)) (hl : s.datasetLabels[i]? = some label) :
    report s = some (label, s.minDistanceSq) := by
  unfold report
  have hne : s.bestMatchIndex ≠ -1 := by rw [hb]; omega
  rw [if_pos hne, hb, Int.toNat_ofNat, hl]

theorem projectToPCA_resized (resize : Mat → Nat → Nat → Mat) (meanFace eigenfaces : Mat)
    (hresize : ∀ m w h, (resize m w h).rows = h ∧ (resize m w h).cols = w)
    (hmodel : meanFace.rows * meanFace.cols = eigenfaces.cols) (img : Mat) :
    ∃ p, projectToPCA (resize img meanFace.cols meanFace.rows) meanFace eigenfaces = some p := by
  rw [projectToPCA_isSome_shapes]
  left
  obtain ⟨h1, h2⟩ := hresize img meanFace.cols meanFace.rows
  rw [h1, h2]
  exact ⟨rfl, hmodel⟩

theorem datasetLoop_eq_matchLoop (resize : Mat → Nat → Nat → Mat)
    (meanFace eigenfaces q : Mat)
    (hproj : ∀ img, ∃ p,
      projectToPCA (resize img meanFace.cols meanFace.rows) meanFace eigenfaces = some p) :
    ∀ (dataset : List (String × Mat)) (s : MatchState),
      datasetLoop resize meanFace eigenfaces q dataset s =
        matchLoop q (candidates resize meanFace eigenfaces dataset) s := by
  intro dataset
  induction dataset with
  | nil => intro s; simp [datasetLoop, candidates, matchLoop]
  | cons x rest ih =>
    intro s
    obtain ⟨path, img⟩ := x
    obtain ⟨p, hp⟩ := hproj img
    have ih2 : ∀ s, datasetLoop resize meanFace eigenfaces q rest s =
        matchLoop q (List.filterMap (fun entry =>
          if endsWithPgm entry.1 = true ∧ entry.2.empty = false then
            (projectToPCA (resize entry.2 meanFace.cols meanFace.rows) meanFace eigenfaces).map
              (fun p => (entry.1, p))
          else none) rest) s := ih
    by_cases h1 : endsWithPgm path = true
    · by_cases h2 : img.empty = true
      · simp [datasetLoop, candidates, h1, h2, ih2]
      · have h2f : img.empty = false := by simpa using h2
        simp only [datasetLoop, candidates, h1, h2f, if_true, Bool.false_eq_true, if_false, hp,
          List.filterMap_cons, and_self, Option.map_some', matchLoop]
        cases matchStep q s path p with
        | none => rfl
        | some s1 => exact ih2 s1
    · simp [datasetLoop, candidates, h1, ih2]

theorem candidates_shape (resize : Mat → Nat → Nat → Mat) (meanFace eigenfaces : Mat)
    (dataset : List (String × Mat)) (r : String × Mat)
    (hr : r ∈ candidates resize meanFace eigenfaces dataset) :
    r.2.rows = 1 ∧ r.2.cols = eigenfaces.rows ∧ r.2.data.length = eigenfaces.rows ∧
    ∃ e ∈ dataset, endsWithPgm e.1 = true ∧ e.2.empty = false ∧
      projectToPCA (resize e.2 meanFace.cols meanFace.rows) meanFace eigenfaces = some r.2 := by
  unfold candidates at hr
  rw [List.mem_filterMap] at hr
  obtain ⟨e, he, hf⟩ := hr
  by_cases hc : endsWithPgm e.1 = true ∧ e.2.empty = false
  · rw [if_pos hc] at hf
    cases hp : projectToPCA (resize e.2 meanFace.cols meanFace.rows) meanFace eigenfaces with
    | none => rw [hp] at hf; exact absurd hf (by simp)
    | some p =>
      rw [hp] at hf
      simp only [Option.map_some', Option.some.injEq] at hf
      subst hf
      obtain ⟨h1, h2, h3⟩ := projectToPCA_shape _ _ _ p hp
      exact ⟨h1, h2, h3, e, he, hc.1, hc.2, hp⟩
  · rw [if_neg hc] at hf
    exact absurd hf (by simp)

/-- C5 (amended). With a non-empty, dimensionally consistent model and a
`resize` that returns the requested size: when a reference entry loads and
its projection equals the query’s (in particular when it is the query image
itself) and no earlier compared entry has that projection, the run reports
the label of that entry with distance exactly 0. -/
theorem recognize_self_match (resize : Mat → Nat → Nat → Mat)
    (inputFace meanFace eigenfaces img : Mat) (pre post : List (String × Mat)) (label : String)
    (hresize : ∀ m w h, (resize m w h).rows = h ∧ (resize m w h).cols = w)
    (hin : inputFace.empty = false) (hmean : meanFace.empty = false)
    (heig : eigenfaces.empty = false)
    (hmodel : meanFace.rows * meanFace.cols = eigenfaces.cols)
    (hlabel : endsWithPgm label = true) (himg : img.empty = false)
    (hsame : projectToPCA (resize img meanFace.cols meanFace.rows) meanFace eigenfaces =
      projectToPCA (resize inputFace meanFace.cols meanFace.rows) meanFace eigenfaces)
    (hfirst : ∀ e ∈ pre, endsWithPgm e.1 = true → e.2.empty = false →
      projectToPCA (resize e.2 meanFace.cols meanFace.rows) meanFace eigenfaces ≠
        projectToPCA (resize inputFace meanFace.cols meanFace.rows) meanFace eigenfaces) :
    recognize resize inputFace meanFace eigenfaces (pre ++ (label, img) :: post) =
      Run.reported (some (label, 0)) := by
  have hproj := projectToPCA_resized resize meanFace eigenfaces hresize hmodel
  obtain ⟨q, hq⟩ := hproj inputFace
  obtain ⟨hq1, hq2, hq3⟩ := projectToPCA_shape _ _ _ q hq
  have hcand : candidates resize meanFace eigenfaces (pre ++ (label, img) :: post) =
      candidates resize meanFace eigenfaces pre ++
        (label, q) :: candidates resize meanFace eigenfaces post := by
    unfold candidates
    rw [List.filterMap_append, List.filterMap_cons]
    simp [hlabel, himg, hsame, hq]
  have hsize : ∀ r ∈ candidates resize meanFace eigenfaces (pre ++ (label, img) :: post),
      q.rows = r.2.rows ∧ q.cols = r.2.cols := by
    intro r hr
    obtain ⟨h1, h2, -, -⟩ := candidates_shape resize meanFace eigenfaces _ r hr
    exact ⟨hq1.trans h1.symm, hq2.trans h2.symm⟩
  obtain ⟨s1, hloop, hlabels, halt⟩ :=
    matchLoop_spec q (candidates resize meanFace eigenfaces (pre ++ (label, img) :: post))
      initialState hsize
  have hrun : recognize resize inputFace meanFace eigenfaces (pre ++ (label, img) :: post) =
      Run.reported (report s1) := by
    unfold recognize
    simp only [hin, hmean, heig, Bool.false_eq_true, if_false, Bool.or_self, hq]
    rw [datasetLoop_eq_matchLoop resize meanFace eigenfaces q hproj, hloop]
  rw [hrun]
  have hk : (candidates resize meanFace eigenfaces (pre ++ (label, img) :: post))[
      (candidates resize meanFace eigenfaces pre).length]? = some (label, q) := by
    rw [hcand, List.getElem?_append_right (le_refl _)]
    simp
  have hpos : (0 : ℚ) < DBL_MAX ^ 2 := by unfold DBL_MAX; norm_num
  rcases halt with ⟨-, -, hall⟩ | ⟨i, r, hi, hmin, hbest, -, hall⟩
  · exfalso
    have h1 := hall (label, q) (List.getElem?_mem hk)
    have h3 : initialState.minDistanceSq = DBL_MAX ^ 2 := rfl
    rw [h3, sumSqDiff_self] at h1
    linarith
  · have hzero : sumSqDiff q.data r.2.data = 0 := by
      have h1 := (hall _ (label, q) hk).1
      rw [sumSqDiff_self] at h1
      exact le_antisymm h1 (sumSqDiff_nonneg _ _)
    have hik : i = (candidates resize meanFace eigenfaces pre).length := by
      rcases Nat.lt_trichotomy i (candidates resize meanFace eigenfaces pre).length with h | h | h
      · exfalso
        have hi2 : (candidates resize meanFace eigenfaces pre)[i]? = some r := by
          rw [hcand, List.getElem?_append_left h] at hi
          exact hi
        obtain ⟨h1, h2, h3, e, he, hpgm, hne, hp⟩ :=
          candidates_shape resize meanFace eigenfaces pre r (List.getElem?_mem hi2)
        have hdata : q.data = r.2.data :=
          eq_of_sumSqDiff_eq_zero q.data r.2.data (hq3.trans h3.symm) hzero
        have hrq : r.2 = q := by
          cases hr2 : r.2 with
          | mk rows cols data =>
            cases hqq : q with
            | mk rows1 cols1 data1 =>
              rw [hr2] at h1 h2 hdata
              rw [hqq] at hq1 hq2 hdata
              simp only at h1 h2 hdata hq1 hq2
              subst h1 hq1
              rw [h2, hq2, hdata]
        apply hfirst e he hpgm hne
        rw [hp, hq, hrq]
      · exact h
      · exfalso
        have h1 := (hall _ (label, q) hk).2 h
        rw [sumSqDiff_self] at h1
        linarith [sumSqDiff_nonneg q.data r.2.data]
    have hr : r = (label, q) := by
      rw [hik, hk] at hi
      exact (Option.some.inj hi).symm
    have hlab : s1.datasetLabels[i]? = some label := by
      rw [hlabels]
      simp only [initialState, List.nil_append, List.getElem?_map]
      rw [hik, hk]
      rfl
    have hb : s1.bestMatchIndex = (i : Int) := by
      rw [hbest]; simp [initialState]
    rw [report_of_index s1 i label hb hlab, hmin, hzero]

theorem recognize_self_match_witness :
    recognize (fun m w h => ⟨h, w, m.data⟩) ⟨1, 2, [5, 9]⟩ ⟨1, 2, [0, 0]⟩ ⟨1, 2, [1, 0]⟩
      ([("a.pgm", ⟨1, 2, [4, 7]⟩)] ++ ("b.pgm", ⟨1, 2, [5, 9]⟩) :: []) =
      Run.reported (some ("b.pgm", 0)) :=
  recognize_self_match (fun m w h => ⟨h, w, m.data⟩) ⟨1, 2, [5, 9]⟩ ⟨1, 2, [0, 0]⟩
    ⟨1, 2, [1, 0]⟩ ⟨1, 2, [5, 9]⟩ [("a.pgm", ⟨1, 2, [4, 7]⟩)] [] "b.pgm"
    (fun _ _ _ => ⟨rfl, rfl⟩) (by decide) (by decide) (by decide) (by decide) (by decide)
    (by decide) rfl
    (by
      intro e he _ _
      simp only [List.mem_singleton] at he
      subst he
      norm_num [projectToPCA, subtract, mulTransposed, Mat.reshape11, Mat.row, dot,
        List.range, List.range.loop])

/-- C5 (counterexample). The model keeps the first pixel only. The reference
set holds `a.pgm = [5, 7]` and then `b.pgm = [5, 9]`; the query is the image
of `b.pgm`. Both references project to `[5]`, at distance 0 from the query,
and the loop reports `a.pgm`, the first of them, not the query’s own entry. -/
theorem recognize_self_match_counterexample :
    recognize (fun m w h => ⟨h, w, m.data⟩) ⟨1, 2, [5, 9]⟩ ⟨1, 2, [0, 0]⟩ ⟨1, 2, [1, 0]⟩
      [("a.pgm", ⟨1, 2, [5, 7]⟩), ("b.pgm", ⟨1, 2, [5, 9]⟩)] =
      Run.reported (some ("a.pgm", 0)) := by
  have e1 : endsWithPgm "a.pgm" = true := by decide
  have e2 : endsWithPgm "b.pgm" = true := by decide
  have hpos : (0 : ℚ) < DBL_MAX ^ 2 := by unfold DBL_MAX; norm_num
  have p1 : projectToPCA ⟨1, 2, [5, 9]⟩ ⟨1, 2, [0, 0]⟩ ⟨1, 2, [1, 0]⟩ = some ⟨1, 1, [5]⟩ := by
    norm_num [projectToPCA, subtract, mulTransposed, Mat.reshape11, Mat.row, dot,
      List.range, List.range.loop]
  have p2 : projectToPCA ⟨1, 2, [5, 7]⟩ ⟨1, 2, [0, 0]⟩ ⟨1, 2, [1, 0]⟩ = some ⟨1, 1, [5]⟩ := by
    norm_num [projectToPCA, subtract, mulTransposed, Mat.reshape11, Mat.row, dot,
      List.range, List.range.loop]
  have d : computeEuclideanDistanceSq ⟨1, 1, [5]⟩ ⟨1, 1, [5]⟩ = some 0 := by
    norm_num [computeEuclideanDistanceSq, sumSqDiff]
  simp [recognize, Mat.empty, datasetLoop, e1, e2, p1, p2, matchStep, d, initialState, hpos,
    report]

end Recognizer

end Eigenface
